

import Mathlib

/-!
# Verification of the `removeApplicants` chatlog normalizer

Shallow embedding of the `removeApplicants` function of `src/App.tsx`
(the variant with the time-of-day pre-sort and the day-offset inference
pass), together with proofs of the specified properties.

Modelling conventions:
* JavaScript strings are Lean `String`s; line processing is done on
  `List Char` obtained via `String.data`.
* `Date` values are modelled as `Nat` milliseconds since the epoch.
  `new Date(0)` is `0`; `new Date('2000-01-01T00:00:00')` (a local-time
  constant, far after the epoch) is the constant `baseMs`, and
  `setHours(h, m, s, 0)` adds `((h*60+m)*60+s)*1000` (the `Date` hour
  arithmetic is linear in `h`, `m`, `s`, rolling over past 23 exactly as
  the addition does).
* The regular expression built from the user's search parameter is
  modelled by `compilePattern`/`regexTest`, a fragment of ECMAScript
  regexes (ordinary literal characters plus the `.` wildcard, under the
  `i` flag).  Patterns outside the fragment compile to `none`;
  `removeApplicants` returns `none` exactly when compilation fails,
  modelling the `SyntaxError` thrown by `new RegExp` on invalid input.
* The `Map` of unique lines is an insertion-ordered association list,
  matching the iteration-order guarantees of JavaScript `Map`.
-/

open List

/-- The characters matched by `\\s` in an ECMAScript regex, which is also
the character class removed by `String.prototype.trim` (whitespace and
line terminators, written by code point). -/
def isJsWhitespace (c : Char) : Bool :=
  c.toNat = 32 || c.toNat = 9 || c.toNat = 10 || c.toNat = 13 ||
  c.toNat = 11 || c.toNat = 12 || c.toNat = 0xa0 || c.toNat = 0x1680 ||
  (0x2000 <= c.toNat && c.toNat <= 0x200a) ||
  c.toNat = 0x2028 || c.toNat = 0x2029 || c.toNat = 0x202f ||
  c.toNat = 0x205f || c.toNat = 0x3000 || c.toNat = 0xfeff

/-- ECMAScript line terminators (the characters `.` does not match). -/
def isLineTerminator (c : Char) : Bool :=
  c.toNat = 10 || c.toNat = 13 || c.toNat = 0x2028 || c.toNat = 0x2029

/-- `String.prototype.trim` on a character list: drop leading and
trailing whitespace. -/
def jsTrimList (s : List Char) : List Char :=
  ((s.dropWhile isJsWhitespace).reverse.dropWhile isJsWhitespace).reverse

/-- `String.prototype.trim`. -/
def jsTrim (s : String) : String := ⟨jsTrimList s.data⟩

/-- `chatlog.split('\n')` on a character list: split at every `'\n'`,
keeping empty segments (so the result is always nonempty). -/
def splitLines : List Char → List (List Char)
  | [] => [[]]
  | c :: cs =>
    if c = '\n' then [] :: splitLines cs
    else
      match splitLines cs with
      | [] => [[c]]
      | l :: ls => (c :: l) :: ls

/-- The `\d` character class of the timestamp regex. -/
def isAsciiDigit (c : Char) : Bool := 48 ≤ c.toNat && c.toNat ≤ 57

/-- Numeric value of a digit character. -/
def digitVal (c : Char) : Nat := c.toNat - 48

/-- The three captured fields of the timestamp regex
`/^\[(\d{2}):(\d{2}):(\d{2})\]\s*(.*)/`, already converted by
`parseInt(_, 10)`. -/
structure TimestampParts where
  hours : Nat
  minutes : Nat
  seconds : Nat
deriving Repr, DecidableEq

/-- Matching `trimmedLine.match(/^\[(\d{2}):(\d{2}):(\d{2})\]\s*(.*)/)`:
on success, the three numeric fields and the `(.*)` capture (everything
after the bracketed timestamp and the greedy `\s*` run, up to the first
line terminator, since `.` matches no line terminator). -/
def parseTimestamp : List Char → Option (TimestampParts × List Char)
  | '[' :: h1 :: h2 :: ':' :: m1 :: m2 :: ':' :: s1 :: s2 :: ']' :: rest =>
    if isAsciiDigit h1 && isAsciiDigit h2 && isAsciiDigit m1 && isAsciiDigit m2 &&
       isAsciiDigit s1 && isAsciiDigit s2 then
      some (⟨10 * digitVal h1 + digitVal h2,
             10 * digitVal m1 + digitVal m2,
             10 * digitVal s1 + digitVal s2⟩,
            (rest.dropWhile isJsWhitespace).takeWhile (fun c => !(isLineTerminator c)))
    else none
  | _ => none

/-- The intermediate record built in Pass 1 of `removeApplicants`. -/
structure ParsedLine where
  fullLine : String
  contentForDeduplication : String
  timestampParts : Option TimestampParts
  originalIndex : Nat
deriving Repr, DecidableEq

/-- Build the `ParsedLine` for a (trimmed, surviving) line: extract the
timestamp when the regex matches, and take the trimmed `(.*)` capture as
the deduplication key; otherwise the whole trimmed line is the key. -/
def mkParsedLine (i : Nat) (trimmed : List Char) : ParsedLine :=
  match parseTimestamp trimmed with
  | some (tp, content) =>
    { fullLine := ⟨trimmed⟩
      contentForDeduplication := ⟨jsTrimList content⟩
      timestampParts := some tp
      originalIndex := i }
  | none =>
    { fullLine := ⟨trimmed⟩
      contentForDeduplication := ⟨trimmed⟩
      timestampParts := none
      originalIndex := i }

/-- Pass 1 of `removeApplicants`: walk the raw lines with their indices,
skip lines that are empty after trimming, skip lines failing the filter
test, and parse the rest. -/
def passOne (keep : String → Bool) : Nat → List (List Char) → List ParsedLine
  | _, [] => []
  | i, raw :: rest =>
    if jsTrimList raw = [] then passOne keep (i + 1) rest
    else if keep ⟨jsTrimList raw⟩ then
      mkParsedLine i (jsTrimList raw) :: passOne keep (i + 1) rest
    else passOne keep (i + 1) rest

/-- The comparator passed to `parsedLines.sort`: lines without
timestamps first (among themselves by original index), then by hours,
minutes, seconds, and finally by original index. -/
def cmpParsed (a b : ParsedLine) : Int :=
  match a.timestampParts, b.timestampParts with
  | none, none => (a.originalIndex : Int) - (b.originalIndex : Int)
  | none, some _ => -1
  | some _, none => 1
  | some ta, some tb =>
    if ta.hours ≠ tb.hours then (ta.hours : Int) - (tb.hours : Int)
    else if ta.minutes ≠ tb.minutes then (ta.minutes : Int) - (tb.minutes : Int)
    else if ta.seconds ≠ tb.seconds then (ta.seconds : Int) - (tb.seconds : Int)
    else (a.originalIndex : Int) - (b.originalIndex : Int)

section StableSort

variable {α : Type} (le : α → α → Bool)

/-- Insert `x` after every element `y` of `l` with `le y x`; the
building block of the stable sort modelling `Array.prototype.sort`. -/
def insertAfter (x : α) : List α → List α
  | [] => [x]
  | y :: ys => if le y x then y :: insertAfter x ys else x :: y :: ys

/-- Stable sort by the boolean relation `le` (insertion sort, processing
elements left to right and placing each after its equals), the behaviour
of `Array.prototype.sort` with a consistent comparator. -/
def stableSort (l : List α) : List α :=
  l.foldl (fun acc x => insertAfter le x acc) []

end StableSort

/-- `parsedLines.sort((a, b) => ...)` with the comparator `cmpParsed`. -/
def sortParsed (l : List ParsedLine) : List ParsedLine :=
  stableSort (fun a b => decide (cmpParsed a b ≤ 0)) l

/-- Epoch milliseconds of the base date `new Date('2000-01-01T00:00:00')`
used for time-of-day values.  Only two facts about it are observable:
it is one fixed constant for every line, and it is positive (far after
`new Date(0)`); the local-time offset is absorbed into the constant. -/
def baseMs : Nat := 946684800000

/-- `currentTimeOfDay.setHours(hours, minutes, seconds, 0)` on the base
date: the time-of-day contribution, in milliseconds. -/
def todValueMs (tp : TimestampParts) : Nat :=
  ((tp.hours * 60 + tp.minutes) * 60 + tp.seconds) * 1000

/-- A value of the `uniqueLinesMap`: the retained full line and its
resolved timestamp (epoch milliseconds). -/
structure StoredItem where
  fullLine : String
  timestamp : Nat
deriving Repr, DecidableEq

/-- `uniqueLinesMap.get(k)` on the insertion-ordered association list. -/
def mapGet (k : String) : List (String × StoredItem) → Option StoredItem
  | [] => none
  | (k', v) :: rest => if k' = k then some v else mapGet k rest

/-- `uniqueLinesMap.set(k, v)`: replace in place when the key is
present (keeping its position), else append at the end — the JavaScript
`Map` insertion-order semantics. -/
def mapSet (k : String) (v : StoredItem) :
    List (String × StoredItem) → List (String × StoredItem)
  | [] => [(k, v)]
  | (k', v') :: rest =>
    if k' = k then (k', v) :: rest else (k', v') :: mapSet k v rest

/-- The deduplication update: insert when the key is absent, or replace
when the new resolved timestamp is strictly earlier than the stored
one. -/
def dedupInsert (k : String) (item : StoredItem)
    (m : List (String × StoredItem)) : List (String × StoredItem) :=
  match mapGet k m with
  | none => mapSet k item m
  | some old => if old.timestamp > item.timestamp then mapSet k item m else m

/-- The loop state of Pass 2: the map, the running day offset, and the
last time-of-day value (`null` after a line without a timestamp). -/
structure PassTwoState where
  uniqueLines : List (String × StoredItem)
  currentDayOffset : Nat
  lastTimeOfDayValue : Option Nat

/-- One iteration of Pass 2: resolve the line's timestamp (epoch for a
line without one, else time-of-day plus the inferred day offset, the
offset being incremented when the time of day goes strictly backward)
and apply the deduplication update. -/
def passTwoStep (st : PassTwoState) (item : ParsedLine) : PassTwoState :=
  match item.timestampParts with
  | some tp =>
    let ctv := baseMs + todValueMs tp
    let offset :=
      match st.lastTimeOfDayValue with
      | some last => if ctv < last then st.currentDayOffset + 1 else st.currentDayOffset
      | none => st.currentDayOffset
    { uniqueLines :=
        dedupInsert item.contentForDeduplication
          ⟨item.fullLine, ctv + offset * 86400000⟩ st.uniqueLines
      currentDayOffset := offset
      lastTimeOfDayValue := some ctv }
  | none =>
    { uniqueLines :=
        dedupInsert item.contentForDeduplication ⟨item.fullLine, 0⟩ st.uniqueLines
      currentDayOffset := 0
      lastTimeOfDayValue := none }

/-- Pass 2 of `removeApplicants`: fold the day-offset inference and the
deduplication map over the (pre-sorted) parsed lines. -/
def passTwo (items : List ParsedLine) : List (String × StoredItem) :=
  (items.foldl passTwoStep ⟨[], 0, none⟩).uniqueLines

/-- `sortableItems.sort((a, b) => a.timestamp.getTime() - b.timestamp.getTime())`. -/
def sortByTs (l : List StoredItem) : List StoredItem :=
  stableSort (fun a b => decide (a.timestamp ≤ b.timestamp)) l

/-- `lines.join('\n')`. -/
def joinNl : List String → String
  | [] => ""
  | [s] => s
  | s :: rest => s ++ "\n" ++ joinNl rest

/-- The parsed, filtered and pre-sorted lines of a chatlog, as passed to
Pass 2 (`keep` abstracts `includesRegex.test`). -/
def removeApplicantsParsed (keep : String → Bool) (chatlog : String) :
    List ParsedLine :=
  sortParsed (passOne keep 0 (splitLines chatlog.data))

/-- The final, chronologically sorted retained items of the pipeline. -/
def removeApplicantsItems (keep : String → Bool) (chatlog : String) :
    List StoredItem :=
  sortByTs ((passTwo (removeApplicantsParsed keep chatlog)).map Prod.snd)

/-- The whole pipeline for an abstract filter predicate: split, trim,
filter, parse, pre-sort, infer day offsets, deduplicate, sort, join. -/
def removeApplicantsWith (keep : String → Bool) (chatlog : String) : String :=
  joinNl ((removeApplicantsItems keep chatlog).map StoredItem.fullLine)

/-- Atoms of the modelled regex fragment: a literal character, or the
`.` wildcard. -/
inductive RAtom where
  | lit (c : Char)
  | dot
deriving Repr, DecidableEq

/-- ECMAScript regex syntax characters other than `.` — outside the
modelled fragment (of these, an unmatched `(` makes `new RegExp` throw
a `SyntaxError`). -/
def isRegexSyntaxChar (c : Char) : Bool :=
  c = '^' || c = '$' || c = '\\' || c = '*' || c = '+' || c = '?' ||
  c = '(' || c = ')' || c = '[' || c = ']' || c = '\x7b' || c = '\x7d' || c = '|'

/-- Compilation of `new RegExp(pattern, 'i')`, restricted to the
fragment of patterns built from ordinary literal characters and `.`;
`none` models a pattern outside the fragment (asserted only at patterns
on which `new RegExp` genuinely throws, such as `"("`). -/
def compilePattern : List Char → Option (List RAtom)
  | [] => some []
  | c :: cs =>
    if c = '.' then (compilePattern cs).map (fun r => RAtom.dot :: r)
    else if isRegexSyntaxChar c then none
    else (compilePattern cs).map (fun r => RAtom.lit c :: r)

/-- The `i`-flag canonicalization of a character (simple lower-casing;
faithful on ASCII, which is all the concrete inputs use). -/
def foldChar (c : Char) : Char := c.toLower

/-- Whether one atom matches one character (case-insensitively for a
literal; `.` matches everything but a line terminator). -/
def atomMatches : RAtom → Char → Bool
  | .lit a, c => foldChar a = foldChar c
  | .dot, c => !(isLineTerminator c)

/-- Whether the pattern matches a prefix of the character list. -/
def matchesAt : List RAtom → List Char → Bool
  | [], _ => true
  | _ :: _, [] => false
  | a :: as, c :: cs => atomMatches a c && matchesAt as cs

/-- `regex.test(s)`: the pattern matches at some position of `s`. -/
def regexTest (pat : List RAtom) : List Char → Bool
  | [] => matchesAt pat []
  | c :: cs => matchesAt pat (c :: cs) || regexTest pat cs

/-- The `removeApplicants` function of `src/App.tsx`.  The result is
`none` exactly when `new RegExp(searchParameter, 'i')` throws (the only
fallible step); otherwise the filter keeps the trimmed lines the regex
matches, and the pipeline produces the output string. -/
def removeApplicants (chatlog searchParameter : String) : Option String :=
  match compilePattern searchParameter.data with
  | none => none
  | some pat => some (removeApplicantsWith (fun line => regexTest pat line.data) chatlog)

/-- Whether `needle` is a prefix of `hay` (plain character equality). -/
def leadsWith : List Char → List Char → Bool
  | [], _ => true
  | _ :: _, [] => false
  | a :: as, c :: cs => a = c && leadsWith as cs

/-- Whether `needle` occurs as a contiguous run inside `hay`. -/
def containsSeq (needle : List Char) : List Char → Bool
  | [] => leadsWith needle []
  | c :: cs => leadsWith needle (c :: cs) || containsSeq needle cs

/-- Written from the spec's words, for comparison with the code's
regex-based filter: `line` (trimmed) contains `term` as a
case-insensitive substring. -/
def containsCaseInsensitive (line term : String) : Bool :=
  containsSeq (term.data.map foldChar) (line.data.map foldChar)

/-! ## Supporting definitions used by the proofs -/

/-- The sort key realized by `cmpParsed`: rank (lines without timestamps
first), then hours, minutes, seconds, then original index. -/
def parsedKey (p : ParsedLine) : Nat × Nat × Nat × Nat × Nat :=
  match p.timestampParts with
  | none => (0, 0, 0, 0, p.originalIndex)
  | some t => (1, t.hours, t.minutes, t.seconds, p.originalIndex)

/-- Lexicographic order on the sort keys. -/
def keyLe : Nat × Nat × Nat × Nat × Nat → Nat × Nat × Nat × Nat × Nat → Prop
  | (a1, a2, a3, a4, a5), (b1, b2, b3, b4, b5) =>
    a1 < b1 ∨ (a1 = b1 ∧ (a2 < b2 ∨ (a2 = b2 ∧ (a3 < b3 ∨ (a3 = b3 ∧
      (a4 < b4 ∨ (a4 = b4 ∧ a5 ≤ b5)))))))

/-- Weak lexicographic order on the (hours, minutes, seconds) fields. -/
def lexLeTs (x y : TimestampParts) : Prop :=
  x.hours < y.hours ∨ (x.hours = y.hours ∧
    (x.minutes < y.minutes ∨ (x.minutes = y.minutes ∧ x.seconds ≤ y.seconds)))

/-- Each field captured by two digits is at most 99. -/
def wfTs (t : TimestampParts) : Prop :=
  t.hours ≤ 99 ∧ t.minutes ≤ 99 ∧ t.seconds ≤ 99

/-- A parsed line is well formed when its timestamp fields, if any, are
two-digit values. -/
def wfParsed (p : ParsedLine) : Prop :=
  ∀ t, p.timestampParts = some t → wfTs t

/-- The day offset used for the current line: incremented when the time
of day goes strictly backward relative to `lastTimeOfDayValue`. -/
def resolveOff : Option Nat → Nat → Nat → Nat
  | some last, off, ctv => if ctv < last then off + 1 else off
  | none, off, _ => off

/-- The resolved timestamp of every line processed by Pass 2, threading
the `lastTimeOfDayValue` / `currentDayOffset` state but not the map:
epoch (`0`) for a line without a timestamp (which resets the state),
else time-of-day plus the inferred day offset. -/
def resolveList : Option Nat → Nat → List ParsedLine → List (ParsedLine × Nat)
  | _, _, [] => []
  | last, off, item :: rest =>
    match item.timestampParts with
    | some tp =>
      (item, baseMs + todValueMs tp + resolveOff last off (baseMs + todValueMs tp) * 86400000) ::
        resolveList (some (baseMs + todValueMs tp))
          (resolveOff last off (baseMs + todValueMs tp)) rest
    | none => (item, 0) :: resolveList none 0 rest

/-- Folding the deduplication update over resolved lines, starting from
the map `m`. -/
def dedupFoldFrom (m : List (String × StoredItem)) (l : List (ParsedLine × Nat)) :
    List (String × StoredItem) :=
  l.foldl (fun m x => dedupInsert x.1.contentForDeduplication ⟨x.1.fullLine, x.2⟩ m) m

/-- The first occurrence of each deduplication key, skipping keys
already in `seen`. -/
def firstOccsR (seen : List String) : List (ParsedLine × Nat) → List (ParsedLine × Nat)
  | [] => []
  | x :: rest =>
    if x.1.contentForDeduplication ∈ seen then firstOccsR seen rest
    else x :: firstOccsR (x.1.contentForDeduplication :: seen) rest

/-- The parsed lines produced by Pass 1 when every line survives:
`mkParsedLine` applied at consecutive indices. -/
def buildParsed : Nat → List (List Char) → List ParsedLine
  | _, [] => []
  | i, l :: ls => mkParsedLine i l :: buildParsed (i + 1) ls

/-- The order constraint between two raw lines that makes the pre-sort
leave them in place (compared through their parses, ignoring indices). -/
def preLE (l₁ l₂ : List Char) : Prop :=
  match (mkParsedLine 0 l₁).timestampParts, (mkParsedLine 0 l₂).timestampParts with
  | none, none => True
  | none, some _ => True
  | some _, none => False
  | some ta, some tb => lexLeTs ta tb

/-- A pattern with no wildcard: every atom is a literal character. -/
def allLit : List RAtom → Bool
  | [] => true
  | RAtom.lit _ :: rest => allLit rest
  | RAtom.dot :: _ => false

/-! ## Generic facts about the stable insertion sort -/

theorem insertAfter_perm {α : Type} (le : α → α → Bool) (x : α) (l : List α) :
    insertAfter le x l ~ x :: l := by
  induction l with
  | nil => exact List.Perm.refl _
  | cons y ys ih =>
    unfold insertAfter
    by_cases h : le y x = true
    · simp only [h, if_true]
      exact (ih.cons y).trans (List.Perm.swap x y ys)
    · simp [h]

theorem stableSort_go_perm {α : Type} (le : α → α → Bool) (l acc : List α) :
    List.foldl (fun acc x => insertAfter le x acc) acc l ~ acc ++ l := by
  induction l generalizing acc with
  | nil => simp
  | cons x l ih =>
    calc List.foldl (fun acc x => insertAfter le x acc) (insertAfter le x acc) l
        ~ insertAfter le x acc ++ l := ih _
      _ ~ (x :: acc) ++ l := (insertAfter_perm le x acc).append_right l
      _ ~ acc ++ x :: l := List.perm_middle.symm

theorem stableSort_perm {α : Type} (le : α → α → Bool) (l : List α) :
    stableSort le l ~ l := by
  simpa using stableSort_go_perm le l []

theorem mem_stableSort {α : Type} (le : α → α → Bool) (l : List α) (x : α) :
    x ∈ stableSort le l ↔ x ∈ l :=
  (stableSort_perm le l).mem_iff

theorem insertAfter_pairwise {α : Type} (le : α → α → Bool)
    (htot : ∀ a b, le a b = true ∨ le b a = true)
    (htrans : ∀ a b c, le a b = true → le b c = true → le a c = true)
    (x : α) (l : List α) (h : l.Pairwise (fun a b => le a b = true)) :
    (insertAfter le x l).Pairwise (fun a b => le a b = true) := by
  induction l with
  | nil => simp [insertAfter]
  | cons y ys ih =>
    rcases List.pairwise_cons.mp h with ⟨hy, hys⟩
    unfold insertAfter
    by_cases hle : le y x = true
    · simp only [hle, if_true]
      refine List.pairwise_cons.mpr ⟨?_, ih hys⟩
      intro z hz
      rcases List.mem_cons.mp ((insertAfter_perm le x ys).mem_iff.mp hz) with hz' | hz'
      · exact hz' ▸ hle
      · exact hy z hz'
    · have hxy : le x y = true := (htot x y).resolve_right (by simpa using hle)
      simp only [hle, if_false]
      refine List.pairwise_cons.mpr ⟨?_, h⟩
      intro z hz
      rcases List.mem_cons.mp hz with hz' | hz'
      · exact hz' ▸ hxy
      · exact htrans x y z hxy (hy z hz')

theorem stableSort_go_pairwise {α : Type} (le : α → α → Bool)
    (htot : ∀ a b, le a b = true ∨ le b a = true)
    (htrans : ∀ a b c, le a b = true → le b c = true → le a c = true)
    (l acc : List α) (hacc : acc.Pairwise (fun a b => le a b = true)) :
    (List.foldl (fun acc x => insertAfter le x acc) acc l).Pairwise
      (fun a b => le a b = true) := by
  induction l generalizing acc with
  | nil => simpa using hacc
  | cons x l ih => exact ih _ (insertAfter_pairwise le htot htrans x acc hacc)

theorem stableSort_pairwise {α : Type} (le : α → α → Bool)
    (htot : ∀ a b, le a b = true ∨ le b a = true)
    (htrans : ∀ a b c, le a b = true → le b c = true → le a c = true)
    (l : List α) :
    (stableSort le l).Pairwise (fun a b => le a b = true) :=
  stableSort_go_pairwise le htot htrans l [] (List.Pairwise.nil)

theorem insertAfter_of_all {α : Type} (le : α → α → Bool) (x : α) (l : List α)
    (h : ∀ y ∈ l, le y x = true) : insertAfter le x l = l ++ [x] := by
  induction l with
  | nil => rfl
  | cons y ys ih =>
    unfold insertAfter
    rw [h y (List.mem_cons_self y ys), if_pos rfl]
    simp [ih fun z hz => h z (List.mem_cons_of_mem y hz)]

theorem stableSort_go_of_pairwise {α : Type} (le : α → α → Bool) (l acc : List α)
    (h : (acc ++ l).Pairwise (fun a b => le a b = true)) :
    List.foldl (fun acc x => insertAfter le x acc) acc l = acc ++ l := by
  induction l generalizing acc with
  | nil => simp
  | cons x l ih =>
    have hall : ∀ y ∈ acc, le y x = true := by
      intro y hy
      exact (List.pairwise_append.mp h).2.2 y hy x (List.mem_cons_self x l)
    have hstep : insertAfter le x acc = acc ++ [x] := insertAfter_of_all le x acc hall
    calc List.foldl (fun acc x => insertAfter le x acc) (insertAfter le x acc) l
        = List.foldl (fun acc x => insertAfter le x acc) (acc ++ [x]) l := by rw [hstep]
      _ = (acc ++ [x]) ++ l := ih (acc ++ [x]) (by simpa using h)
      _ = acc ++ x :: l := by simp

theorem stableSort_of_pairwise {α : Type} (le : α → α → Bool) (l : List α)
    (h : l.Pairwise (fun a b => le a b = true)) : stableSort le l = l := by
  simpa using stableSort_go_of_pairwise le l [] (by simpa using h)

/-! ## The pre-sort comparator as a lexicographic order -/

theorem cmpParsed_le_iff (a b : ParsedLine) :
    cmpParsed a b ≤ 0 ↔ keyLe (parsedKey a) (parsedKey b) := by
  cases hA : a.timestampParts <;> cases hB : b.timestampParts <;>
    simp only [cmpParsed, parsedKey, hA, hB, keyLe, true_and, lt_self_iff_false,
      false_or] <;>
    omega

theorem keyLe_total (x y : Nat × Nat × Nat × Nat × Nat) : keyLe x y ∨ keyLe y x := by
  obtain ⟨a1, a2, a3, a4, a5⟩ := x
  obtain ⟨b1, b2, b3, b4, b5⟩ := y
  simp only [keyLe]
  omega

theorem keyLe_trans (x y z : Nat × Nat × Nat × Nat × Nat) :
    keyLe x y → keyLe y z → keyLe x z := by
  obtain ⟨a1, a2, a3, a4, a5⟩ := x
  obtain ⟨b1, b2, b3, b4, b5⟩ := y
  obtain ⟨c1, c2, c3, c4, c5⟩ := z
  simp only [keyLe]
  omega

theorem cmpParsed_le_total (a b : ParsedLine) :
    decide (cmpParsed a b ≤ 0) = true ∨ decide (cmpParsed b a ≤ 0) = true := by
  rcases keyLe_total (parsedKey a) (parsedKey b) with h | h
  · exact Or.inl (decide_eq_true ((cmpParsed_le_iff a b).mpr h))
  · exact Or.inr (decide_eq_true ((cmpParsed_le_iff b a).mpr h))

theorem cmpParsed_le_trans (a b c : ParsedLine) :
    decide (cmpParsed a b ≤ 0) = true → decide (cmpParsed b c ≤ 0) = true →
    decide (cmpParsed a c ≤ 0) = true := by
  intro h1 h2
  exact decide_eq_true ((cmpParsed_le_iff a c).mpr
    (keyLe_trans _ _ _ ((cmpParsed_le_iff a b).mp (of_decide_eq_true h1))
      ((cmpParsed_le_iff b c).mp (of_decide_eq_true h2))))

theorem cmpParsed_some_some (a b : ParsedLine) (ta tb : TimestampParts)
    (hA : a.timestampParts = some ta) (hB : b.timestampParts = some tb)
    (h : cmpParsed a b ≤ 0) : lexLeTs ta tb := by
  have := (cmpParsed_le_iff a b).mp h
  simp only [parsedKey, hA, hB, keyLe, lexLeTs] at this ⊢
  omega

theorem cmpParsed_some_none (a b : ParsedLine) (ta : TimestampParts)
    (hA : a.timestampParts = some ta) (hB : b.timestampParts = none)
    (h : cmpParsed a b ≤ 0) : False := by
  have := (cmpParsed_le_iff a b).mp h
  simp only [parsedKey, hA, hB, keyLe] at this
  omega

/-! ## Well-formedness of parsed timestamps -/

theorem digitVal_le (c : Char) (h : isAsciiDigit c = true) : digitVal c ≤ 9 := by
  unfold isAsciiDigit at h
  unfold digitVal
  simp only [Bool.and_eq_true, decide_eq_true_eq] at h
  omega

theorem parseTimestamp_wf (s : List Char) (tp : TimestampParts) (content : List Char)
    (h : parseTimestamp s = some (tp, content)) : wfTs tp := by
  unfold parseTimestamp at h
  split at h
  · split at h
    · rename_i hd
      simp only [Bool.and_eq_true] at hd
      obtain ⟨⟨⟨⟨⟨hd1, hd2⟩, hd3⟩, hd4⟩, hd5⟩, hd6⟩ := hd
      injection h with h'
      injection h' with htp hcontent
      have b1 := digitVal_le _ hd1
      have b2 := digitVal_le _ hd2
      have b3 := digitVal_le _ hd3
      have b4 := digitVal_le _ hd4
      have b5 := digitVal_le _ hd5
      have b6 := digitVal_le _ hd6
      rw [← htp]
      unfold wfTs
      refine ⟨?_, ?_, ?_⟩ <;> dsimp only <;> omega
    · exact absurd h (by simp)
  · exact absurd h (by simp)

theorem mkParsedLine_wf (i : Nat) (trimmed : List Char) :
    wfParsed (mkParsedLine i trimmed) := by
  intro t ht
  unfold mkParsedLine at ht
  split at ht
  · rename_i tp content heq
    simp only at ht
    exact (Option.some_inj.mp ht) ▸ parseTimestamp_wf _ _ _ heq
  · simp only at ht
    exact absurd ht (by simp)

theorem passOne_wf (keep : String → Bool) :
    ∀ (i : Nat) (ls : List (List Char)) (p : ParsedLine),
      p ∈ passOne keep i ls → wfParsed p := by
  intro i ls
  induction ls generalizing i with
  | nil => intro p hp; simp [passOne] at hp
  | cons raw rest ih =>
    intro p hp
    unfold passOne at hp
    split at hp
    · exact ih _ p hp
    · split at hp
      · rcases List.mem_cons.mp hp with h | h
        · exact h ▸ mkParsedLine_wf _ _
        · exact ih _ p h
      · exact ih _ p hp

/-! ## Separating timestamp resolution from deduplication -/

theorem passTwo_decomp_aux :
    ∀ (items : List ParsedLine) (m : List (String × StoredItem)) (off : Nat)
      (last : Option Nat),
      (List.foldl passTwoStep ⟨m, off, last⟩ items).uniqueLines
        = dedupFoldFrom m (resolveList last off items) := by
  intro items
  induction items with
  | nil => intro m off last; rfl
  | cons item rest ih =>
    intro m off last
    rw [List.foldl_cons]
    cases hts : item.timestampParts with
    | some tp =>
      cases last with
      | none =>
        simp only [passTwoStep, hts, resolveList, resolveOff, dedupFoldFrom,
          List.foldl_cons]
        exact ih _ _ _
      | some l =>
        by_cases hlt : baseMs + todValueMs tp < l
        · simp only [passTwoStep, hts, resolveList, resolveOff, if_pos hlt,
            dedupFoldFrom, List.foldl_cons]
          exact ih _ _ _
        · simp only [passTwoStep, hts, resolveList, resolveOff, if_neg hlt,
            dedupFoldFrom, List.foldl_cons]
          exact ih _ _ _
    | none =>
      simp only [passTwoStep, hts, resolveList, dedupFoldFrom, List.foldl_cons]
      exact ih _ _ _

theorem passTwo_eq (items : List ParsedLine) :
    passTwo items = dedupFoldFrom [] (resolveList none 0 items) :=
  passTwo_decomp_aux items [] 0 none

theorem resolveList_fst :
    ∀ (last : Option Nat) (off : Nat) (items : List ParsedLine),
      (resolveList last off items).map Prod.fst = items := by
  intro last off items
  induction items generalizing last off with
  | nil => rfl
  | cons item rest ih =>
    cases hts : item.timestampParts with
    | some tp => simp only [resolveList, hts, List.map_cons, ih]
    | none => simp only [resolveList, hts, List.map_cons, ih]

theorem resolveList_shape :
    ∀ (last : Option Nat) (off : Nat) (items : List ParsedLine)
      (p : ParsedLine) (ts : Nat), (p, ts) ∈ resolveList last off items →
      (p.timestampParts = none → ts = 0) ∧
      (∀ tp, p.timestampParts = some tp →
        ∃ k, ts = baseMs + todValueMs tp + k * 86400000) := by
  intro last off items
  induction items generalizing last off with
  | nil => intro p ts h; simp [resolveList] at h
  | cons item rest ih =>
    intro p ts h
    cases hts : item.timestampParts with
    | some tp =>
      rw [resolveList, hts] at h
      rcases List.mem_cons.mp h with h' | h'
      · rw [Prod.mk.injEq] at h'
        obtain ⟨hp, hts'⟩ := h'
        constructor
        · intro hnone
          rw [hp, hts] at hnone
          exact absurd hnone (by simp)
        · intro tp' hsome
          rw [hp, hts] at hsome
          obtain rfl : tp = tp' := Option.some_inj.mp hsome
          exact ⟨resolveOff last off (baseMs + todValueMs tp), hts'⟩
      · exact ih _ _ p ts h'
    | none =>
      rw [resolveList, hts] at h
      rcases List.mem_cons.mp h with h' | h'
      · rw [Prod.mk.injEq] at h'
        obtain ⟨hp, hts'⟩ := h'
        constructor
        · intro _; exact hts'
        · intro tp' hsome
          rw [hp, hts] at hsome
          exact absurd hsome (by simp)
      · exact ih _ _ p ts h'

/-! ## Monotonicity of resolved timestamps along the pre-sorted order -/

/-- Between two well-formed timestamps in weak lexicographic order, the
time of day can drop by less than one day (at most 2 439 000 ms, since
minutes and seconds are bounded by 99). -/
theorem tod_drop_bound (tp ta : TimestampParts) (hp : wfTs tp) (ha : wfTs ta)
    (hlex : lexLeTs tp ta) : todValueMs tp ≤ todValueMs ta + 86400000 := by
  obtain ⟨h1, h2, h3⟩ := hp
  obtain ⟨g1, g2, g3⟩ := ha
  unfold todValueMs
  unfold lexLeTs at hlex
  omega

theorem resolve_chain_aux :
    ∀ (items : List ParsedLine) (tp : TimestampParts) (off : Nat),
      (∀ p ∈ items, wfParsed p) → wfTs tp →
      List.Chain' (fun a b => cmpParsed a b ≤ 0) items →
      (∀ a, items.head? = some a → a.timestampParts ≠ none) →
      (∀ a ta, items.head? = some a → a.timestampParts = some ta → lexLeTs tp ta) →
      List.Chain (fun x y => x ≤ y) (baseMs + todValueMs tp + off * 86400000)
        ((resolveList (some (baseMs + todValueMs tp)) off items).map Prod.snd) := by
  intro items
  induction items with
  | nil => intro tp off _ _ _ _ _; simp only [resolveList, List.map_nil]; exact List.Chain.nil
  | cons a rest ih =>
    intro tp off hWF hwtp hchain hhdSome hhdLe
    have hne := hhdSome a rfl
    cases hts : a.timestampParts with
    | none => exact absurd hts hne
    | some ta =>
      have hlex : lexLeTs tp ta := hhdLe a ta rfl hts
      have hwta : wfTs ta := hWF a (List.mem_cons_self a rest) ta hts
      have hdrop := tod_drop_bound tp ta hwtp hwta hlex
      have hrest : ∀ b, rest.head? = some b → cmpParsed a b ≤ 0 := by
        intro b hb
        exact (List.chain'_cons'.mp hchain).1 b (Option.mem_def.mpr hb)
      have hrestSome : ∀ b, rest.head? = some b → b.timestampParts ≠ none := by
        intro b hb hbn
        exact cmpParsed_some_none a b ta hts hbn (hrest b hb)
      have hrestLe : ∀ b tb, rest.head? = some b → b.timestampParts = some tb →
          lexLeTs ta tb := by
        intro b tb hb hbts
        exact cmpParsed_some_some a b ta tb hts hbts (hrest b hb)
      have hWFrest : ∀ p ∈ rest, wfParsed p :=
        fun p hp => hWF p (List.mem_cons_of_mem a hp)
      have htail := ih ta (resolveOff (some (baseMs + todValueMs tp)) off
        (baseMs + todValueMs ta)) hWFrest hwta (List.Chain'.tail hchain) hrestSome hrestLe
      simp only [resolveList, hts, List.map_cons]
      refine List.Chain.cons ?_ htail
      simp only [resolveOff] at htail ⊢
      by_cases hlt : baseMs + todValueMs ta < baseMs + todValueMs tp
      · rw [if_pos hlt]
        omega
      · rw [if_neg hlt]
        omega

theorem resolve_chain (items : List ParsedLine)
    (hWF : ∀ p ∈ items, wfParsed p)
    (hchain : List.Chain' (fun a b => cmpParsed a b ≤ 0) items) :
    List.Chain' (fun x y => x ≤ y) ((resolveList none 0 items).map Prod.snd) := by
  induction items with
  | nil => simp [resolveList]
  | cons a rest ih =>
    cases hts : a.timestampParts with
    | none =>
      simp only [resolveList, hts, List.map_cons]
      refine List.chain'_cons'.mpr ⟨fun y _ => Nat.zero_le y, ?_⟩
      exact ih (fun p hp => hWF p (List.mem_cons_of_mem a hp)) (List.Chain'.tail hchain)
    | some ta =>
      have hwta : wfTs ta := hWF a (List.mem_cons_self a rest) ta hts
      have hrest : ∀ b, rest.head? = some b → cmpParsed a b ≤ 0 := by
        intro b hb
        exact (List.chain'_cons'.mp hchain).1 b (Option.mem_def.mpr hb)
      have hrestSome : ∀ b, rest.head? = some b → b.timestampParts ≠ none := by
        intro b hb hbn
        exact cmpParsed_some_none a b ta hts hbn (hrest b hb)
      have hrestLe : ∀ b tb, rest.head? = some b → b.timestampParts = some tb →
          lexLeTs ta tb := by
        intro b tb hb hbts
        exact cmpParsed_some_some a b ta tb hts hbts (hrest b hb)
      have haux := resolve_chain_aux rest ta 0
        (fun p hp => hWF p (List.mem_cons_of_mem a hp)) hwta
        (List.Chain'.tail hchain) hrestSome hrestLe
      simp only [resolveList, hts, List.map_cons, resolveOff]
      exact haux

theorem resolve_pairwise (items : List ParsedLine)
    (hWF : ∀ p ∈ items, wfParsed p)
    (hchain : List.Chain' (fun a b => cmpParsed a b ≤ 0) items) :
    List.Pairwise (fun x y : ParsedLine × Nat => x.2 ≤ y.2)
      (resolveList none 0 items) := by
  have h := resolve_chain items hWF hchain
  have h2 := List.chain'_iff_pairwise.mp h
  exact List.pairwise_map.mp h2

/-! ## Sortedness and well-formedness of the pre-sorted parsed lines -/

theorem sortParsed_pairwise (l : List ParsedLine) :
    List.Pairwise (fun a b => cmpParsed a b ≤ 0) (sortParsed l) := by
  have h := stableSort_pairwise (fun a b => decide (cmpParsed a b ≤ 0))
    cmpParsed_le_total cmpParsed_le_trans l
  exact h.imp of_decide_eq_true

theorem sortParsed_chain' (l : List ParsedLine) :
    List.Chain' (fun a b => cmpParsed a b ≤ 0) (sortParsed l) :=
  (sortParsed_pairwise l).chain'

theorem sortParsed_wf (l : List ParsedLine) (hWF : ∀ p ∈ l, wfParsed p) :
    ∀ p ∈ sortParsed l, wfParsed p := by
  intro p hp
  exact hWF p ((mem_stableSort _ l p).mp hp)

theorem removeApplicantsParsed_wf (keep : String → Bool) (chatlog : String) :
    ∀ p ∈ removeApplicantsParsed keep chatlog, wfParsed p :=
  sortParsed_wf _ (fun p hp => passOne_wf keep 0 _ p hp)

theorem removeApplicantsParsed_resolved_pairwise (keep : String → Bool)
    (chatlog : String) :
    List.Pairwise (fun x y : ParsedLine × Nat => x.2 ≤ y.2)
      (resolveList none 0 (removeApplicantsParsed keep chatlog)) :=
  resolve_pairwise _ (removeApplicantsParsed_wf keep chatlog)
    (sortParsed_chain' _)

/-! ## The deduplication map as a first-occurrence filter -/

theorem mapGet_eq_none (k : String) (m : List (String × StoredItem)) :
    mapGet k m = none ↔ k ∉ m.map Prod.fst := by
  induction m with
  | nil => simp [mapGet]
  | cons kv rest ih =>
    obtain ⟨k', v⟩ := kv
    by_cases h : k' = k
    · simp [mapGet, h]
    · simp [mapGet, h, ih, Ne.symm h]

theorem mapGet_mem (k : String) (m : List (String × StoredItem)) (v : StoredItem)
    (h : mapGet k m = some v) : (k, v) ∈ m := by
  induction m with
  | nil => simp [mapGet] at h
  | cons kv rest ih =>
    obtain ⟨k', v'⟩ := kv
    by_cases hk : k' = k
    · rw [mapGet, if_pos hk] at h
      subst hk
      exact List.mem_cons.mpr (Or.inl (by rw [Option.some_inj.mp h]))
    · rw [mapGet, if_neg hk] at h
      exact List.mem_cons.mpr (Or.inr (ih h))

theorem mapSet_not_mem (k : String) (v : StoredItem) (m : List (String × StoredItem))
    (h : k ∉ m.map Prod.fst) : mapSet k v m = m ++ [(k, v)] := by
  induction m with
  | nil => rfl
  | cons kv rest ih =>
    obtain ⟨k', v'⟩ := kv
    simp only [List.map_cons, List.mem_cons] at h
    push_neg at h
    rw [mapSet, if_neg (Ne.symm h.1), ih h.2]
    rfl

theorem firstOccsR_congr (seen₁ seen₂ : List String)
    (h : ∀ s, s ∈ seen₁ ↔ s ∈ seen₂) (l : List (ParsedLine × Nat)) :
    firstOccsR seen₁ l = firstOccsR seen₂ l := by
  induction l generalizing seen₁ seen₂ with
  | nil => rfl
  | cons x rest ih =>
    by_cases hx : x.1.contentForDeduplication ∈ seen₁
    · rw [firstOccsR, if_pos hx, firstOccsR, if_pos ((h _).mp hx)]
      exact ih seen₁ seen₂ h
    · rw [firstOccsR, if_neg hx, firstOccsR, if_neg (fun hc => hx ((h _).mpr hc))]
      rw [ih (x.1.contentForDeduplication :: seen₁) (x.1.contentForDeduplication :: seen₂)
        (fun s => by simp only [List.mem_cons]; exact or_congr Iff.rfl (h s))]

theorem firstOccsR_sublist (seen : List String) (l : List (ParsedLine × Nat)) :
    firstOccsR seen l <+ l := by
  induction l generalizing seen with
  | nil => exact List.Sublist.refl _
  | cons x rest ih =>
    by_cases hx : x.1.contentForDeduplication ∈ seen
    · rw [firstOccsR, if_pos hx]
      exact List.Sublist.cons x (ih seen)
    · rw [firstOccsR, if_neg hx]
      exact List.Sublist.cons₂ x (ih _)

theorem firstOccsR_not_seen (seen : List String) (l : List (ParsedLine × Nat)) :
    ∀ x ∈ firstOccsR seen l, x.1.contentForDeduplication ∉ seen := by
  induction l generalizing seen with
  | nil => intro x hx; simp [firstOccsR] at hx
  | cons z rest ih =>
    intro x hx
    by_cases hz : z.1.contentForDeduplication ∈ seen
    · rw [firstOccsR, if_pos hz] at hx
      exact ih seen x hx
    · rw [firstOccsR, if_neg hz] at hx
      rcases List.mem_cons.mp hx with h | h
      · exact h ▸ hz
      · intro hc
        exact ih _ x h (List.mem_cons_of_mem _ hc)

theorem firstOccsR_keys_nodup (seen : List String) (l : List (ParsedLine × Nat)) :
    ((firstOccsR seen l).map (fun x => x.1.contentForDeduplication)).Nodup := by
  induction l generalizing seen with
  | nil => simp [firstOccsR]
  | cons z rest ih =>
    by_cases hz : z.1.contentForDeduplication ∈ seen
    · rw [firstOccsR, if_pos hz]
      exact ih seen
    · rw [firstOccsR, if_neg hz]
      rw [List.map_cons]
      refine List.nodup_cons.mpr ⟨?_, ih _⟩
      intro hc
      rcases List.mem_map.mp hc with ⟨y, hy, hkey⟩
      exact firstOccsR_not_seen _ _ y hy (hkey ▸ List.mem_cons_self _ _)

theorem firstOccsR_all_new (seen : List String) (l : List (ParsedLine × Nat))
    (hnodup : (l.map (fun x => x.1.contentForDeduplication)).Nodup)
    (hdisj : ∀ x ∈ l, x.1.contentForDeduplication ∉ seen) :
    firstOccsR seen l = l := by
  induction l generalizing seen with
  | nil => rfl
  | cons z rest ih =>
    rw [firstOccsR, if_neg (hdisj z (List.mem_cons_self z rest))]
    rw [List.map_cons, List.nodup_cons] at hnodup
    rw [ih _ hnodup.2]
    intro x hx
    simp only [List.mem_cons, not_or]
    constructor
    · intro hc
      exact hnodup.1 (hc ▸ List.mem_map_of_mem (fun x => x.1.contentForDeduplication) hx)
    · exact hdisj x (List.mem_cons_of_mem z hx)

theorem firstOccsR_min (l : List (ParsedLine × Nat))
    (hpw : List.Pairwise (fun x y : ParsedLine × Nat => x.2 ≤ y.2) l) :
    ∀ seen, ∀ x ∈ firstOccsR seen l, ∀ y ∈ l,
      y.1.contentForDeduplication = x.1.contentForDeduplication → x.2 ≤ y.2 := by
  induction l with
  | nil => intro seen x hx; simp [firstOccsR] at hx
  | cons z rest ih =>
    intro seen x hx y hy hkey
    rcases List.pairwise_cons.mp hpw with ⟨hz, hrest⟩
    by_cases hzs : z.1.contentForDeduplication ∈ seen
    · rw [firstOccsR, if_pos hzs] at hx
      rcases List.mem_cons.mp hy with rfl | hy'
      · exact absurd (hkey ▸ hzs) (firstOccsR_not_seen seen rest x hx)
      · exact ih hrest seen x hx y hy' hkey
    · rw [firstOccsR, if_neg hzs] at hx
      rcases List.mem_cons.mp hx with rfl | hx'
      · rcases List.mem_cons.mp hy with rfl | hy'
        · exact Nat.le_refl _
        · exact hz y hy'
      · rcases List.mem_cons.mp hy with hzy | hy'
        · have hns := firstOccsR_not_seen _ rest x hx'
          have hxz : x.1.contentForDeduplication = z.1.contentForDeduplication := by
            rw [← hkey, hzy]
          exact absurd (by rw [hxz]; exact List.mem_cons_self _ _) hns
        · exact ih hrest _ x hx' y hy' hkey

theorem dedupInsert_skip (k : String) (item : StoredItem)
    (m : List (String × StoredItem)) (old : StoredItem)
    (hold : mapGet k m = some old) (hle : old.timestamp ≤ item.timestamp) :
    dedupInsert k item m = m := by
  unfold dedupInsert
  rw [hold]
  have h : ¬ old.timestamp > item.timestamp := by omega
  simp [h]

theorem dedupInsert_new (k : String) (item : StoredItem)
    (m : List (String × StoredItem)) (hget : mapGet k m = none) :
    dedupInsert k item m = mapSet k item m := by
  unfold dedupInsert
  rw [hget]

theorem dedupFoldFrom_firstOccs :
    ∀ (l : List (ParsedLine × Nat)) (m : List (String × StoredItem)),
      List.Pairwise (fun x y : ParsedLine × Nat => x.2 ≤ y.2) l →
      (∀ k v, (k, v) ∈ m → ∀ x ∈ l, x.1.contentForDeduplication = k →
        v.timestamp ≤ x.2) →
      dedupFoldFrom m l
        = m ++ (firstOccsR (m.map Prod.fst) l).map
            (fun x => (x.1.contentForDeduplication, ⟨x.1.fullLine, x.2⟩)) := by
  intro l
  induction l with
  | nil => intro m _ _; simp [dedupFoldFrom, firstOccsR]
  | cons x rest ih =>
    intro m hpw hinv
    rcases List.pairwise_cons.mp hpw with ⟨hx, hrest⟩
    have hcons : dedupFoldFrom m (x :: rest)
        = dedupFoldFrom (dedupInsert x.1.contentForDeduplication
            ⟨x.1.fullLine, x.2⟩ m) rest := rfl
    by_cases hmem : x.1.contentForDeduplication ∈ m.map Prod.fst
    · obtain ⟨old, hold⟩ : ∃ v, mapGet x.1.contentForDeduplication m = some v := by
        cases hget : mapGet x.1.contentForDeduplication m with
        | none => exact absurd ((mapGet_eq_none _ _).mp hget) (by simpa using hmem)
        | some v => exact ⟨v, rfl⟩
      have hle : old.timestamp ≤ x.2 :=
        hinv _ old (mapGet_mem _ _ _ hold) x (List.mem_cons_self x rest) rfl
      rw [hcons, dedupInsert_skip _ _ _ old hold hle, firstOccsR, if_pos hmem]
      exact ih m hrest (fun k v hv y hy hk =>
        hinv k v hv y (List.mem_cons_of_mem x hy) hk)
    · have hget : mapGet x.1.contentForDeduplication m = none :=
        (mapGet_eq_none _ _).mpr hmem
      have hinv' : ∀ k v,
          (k, v) ∈ m ++ [(x.1.contentForDeduplication, ⟨x.1.fullLine, x.2⟩)] →
          ∀ y ∈ rest, y.1.contentForDeduplication = k → v.timestamp ≤ y.2 := by
        intro k v hv y hy hk
        rcases List.mem_append.mp hv with hv' | hv'
        · exact hinv k v hv' y (List.mem_cons_of_mem x hy) hk
        · simp only [List.mem_singleton, Prod.mk.injEq] at hv'
          rw [hv'.2]
          exact hx y hy
      rw [hcons, dedupInsert_new _ _ _ hget, mapSet_not_mem _ _ m hmem,
        ih _ hrest hinv']
      simp only [List.map_append, List.map_cons, List.map_nil]
      rw [firstOccsR_congr (m.map Prod.fst ++ [x.1.contentForDeduplication])
          (x.1.contentForDeduplication :: m.map Prod.fst)
          (fun s => by simp [or_comm]) rest,
        show firstOccsR (m.map Prod.fst) (x :: rest)
            = x :: firstOccsR (x.1.contentForDeduplication :: m.map Prod.fst) rest from
          by rw [firstOccsR, if_neg hmem]]
      simp

/-! ## Trim is idempotent -/

theorem dropWhile_idem {α : Type} (p : α → Bool) (l : List α) :
    (l.dropWhile p).dropWhile p = l.dropWhile p := by
  induction l with
  | nil => rfl
  | cons a l ih => by_cases hp : p a <;> simp [List.dropWhile_cons, hp, ih]

theorem dropWhile_append_singleton {α : Type} (p : α → Bool) (u : List α) (a : α) :
    List.dropWhile p (u ++ [a]) = [] ∨
      ∃ u', List.dropWhile p (u ++ [a]) = u' ++ [a] := by
  induction u with
  | nil =>
    by_cases hp : p a
    · exact Or.inl (by simp [List.dropWhile_cons, hp])
    · exact Or.inr ⟨[], by simp [List.dropWhile_cons, hp]⟩
  | cons b u' ih =>
    by_cases hp : p b
    · simpa [List.dropWhile_cons, hp] using ih
    · exact Or.inr ⟨b :: u', by simp [List.dropWhile_cons, hp]⟩

theorem dropWhile_reverse_of_no_head {α : Type} (p : α → Bool) (x : List α)
    (hx : x.dropWhile p = x) :
    ((x.reverse.dropWhile p).reverse).dropWhile p = (x.reverse.dropWhile p).reverse := by
  cases x with
  | nil => simp
  | cons a x' =>
    have hpa : p a = false := by
      by_cases hp : p a
      · rw [List.dropWhile_cons, if_pos hp] at hx
        have hlen := congrArg List.length hx
        have hle := (List.dropWhile_sublist (l := x') p).length_le
        simp at hlen
        omega
      · simpa using hp
    have hrw : (a :: x').reverse = x'.reverse ++ [a] := by simp
    rw [hrw]
    rcases dropWhile_append_singleton p x'.reverse a with h | ⟨u', hu⟩
    · rw [h]
      simp
    · rw [hu, List.reverse_append]
      simp [List.dropWhile_cons, hpa]

theorem jsTrimList_no_head (s : List Char) :
    (jsTrimList s).dropWhile isJsWhitespace = jsTrimList s := by
  unfold jsTrimList
  exact dropWhile_reverse_of_no_head isJsWhitespace (s.dropWhile isJsWhitespace)
    (dropWhile_idem isJsWhitespace s)

theorem jsTrimList_no_tail (s : List Char) :
    (jsTrimList s).reverse.dropWhile isJsWhitespace = (jsTrimList s).reverse := by
  unfold jsTrimList
  rw [List.reverse_reverse]
  exact dropWhile_idem isJsWhitespace _

theorem jsTrimList_idem (s : List Char) :
    jsTrimList (jsTrimList s) = jsTrimList s := by
  conv_lhs => rw [jsTrimList]
  rw [jsTrimList_no_head, jsTrimList_no_tail, List.reverse_reverse]

/-! ## The pipeline's retained items are the first key occurrences -/

theorem passTwo_sorted_eq (keep : String → Bool) (chatlog : String) :
    passTwo (removeApplicantsParsed keep chatlog)
      = (firstOccsR [] (resolveList none 0 (removeApplicantsParsed keep chatlog))).map
          (fun x => (x.1.contentForDeduplication, ⟨x.1.fullLine, x.2⟩)) := by
  rw [passTwo_eq, dedupFoldFrom_firstOccs _ []
    (removeApplicantsParsed_resolved_pairwise keep chatlog)
    (by intro k v hv; simp at hv)]
  simp

theorem storedLe_total (a b : StoredItem) :
    decide (a.timestamp ≤ b.timestamp) = true ∨
    decide (b.timestamp ≤ a.timestamp) = true := by
  rcases Nat.le_total a.timestamp b.timestamp with h | h
  · exact Or.inl (decide_eq_true h)
  · exact Or.inr (decide_eq_true h)

theorem storedLe_trans (a b c : StoredItem) :
    decide (a.timestamp ≤ b.timestamp) = true →
    decide (b.timestamp ≤ c.timestamp) = true →
    decide (a.timestamp ≤ c.timestamp) = true := by
  intro h1 h2
  exact decide_eq_true (Nat.le_trans (of_decide_eq_true h1) (of_decide_eq_true h2))

theorem sortByTs_pairwise (l : List StoredItem) :
    List.Pairwise (fun a b => a.timestamp ≤ b.timestamp) (sortByTs l) :=
  (stableSort_pairwise _ storedLe_total storedLe_trans l).imp of_decide_eq_true

theorem sortByTs_of_sorted (l : List StoredItem)
    (h : List.Pairwise (fun a b => a.timestamp ≤ b.timestamp) l) : sortByTs l = l :=
  stableSort_of_pairwise _ l (h.imp decide_eq_true)

theorem removeApplicantsItems_eq (keep : String → Bool) (chatlog : String) :
    removeApplicantsItems keep chatlog
      = (firstOccsR [] (resolveList none 0 (removeApplicantsParsed keep chatlog))).map
          (fun x => ⟨x.1.fullLine, x.2⟩) := by
  unfold removeApplicantsItems
  rw [passTwo_sorted_eq, List.map_map]
  have hcomp : (Prod.snd ∘ fun x : ParsedLine × Nat =>
      ((x.1.contentForDeduplication, ⟨x.1.fullLine, x.2⟩) : String × StoredItem))
      = fun x : ParsedLine × Nat => (⟨x.1.fullLine, x.2⟩ : StoredItem) := rfl
  rw [hcomp]
  apply sortByTs_of_sorted
  have hsub := firstOccsR_sublist ([] : List String)
    (resolveList none 0 (removeApplicantsParsed keep chatlog))
  have hpw := (removeApplicantsParsed_resolved_pairwise keep chatlog).sublist hsub
  exact List.pairwise_map.mpr (hpw.imp fun h => h)

theorem removeApplicantsItems_chain (keep : String → Bool) (chatlog : String) :
    List.Chain' (fun a b => a.timestamp ≤ b.timestamp)
      (removeApplicantsItems keep chatlog) :=
  (sortByTs_pairwise _).chain'

/-! ## Membership: where retained lines come from -/

theorem mkParsedLine_fullLine (i : Nat) (t : List Char) :
    (mkParsedLine i t).fullLine = ⟨t⟩ := by
  unfold mkParsedLine
  split <;> rfl

theorem passOne_mem (keep : String → Bool) :
    ∀ (i : Nat) (ls : List (List Char)) (p : ParsedLine), p ∈ passOne keep i ls →
      ∃ raw ∈ ls, ∃ j, p = mkParsedLine j (jsTrimList raw) ∧
        keep ⟨jsTrimList raw⟩ = true ∧ jsTrimList raw ≠ [] := by
  intro i ls
  induction ls generalizing i with
  | nil => intro p hp; simp [passOne] at hp
  | cons raw rest ih =>
    intro p hp
    unfold passOne at hp
    split at hp
    · obtain ⟨r, hr, hrest⟩ := ih _ p hp
      exact ⟨r, List.mem_cons_of_mem raw hr, hrest⟩
    · rename_i hne
      split at hp
      · rename_i hkeep
        rcases List.mem_cons.mp hp with h | h
        · exact ⟨raw, List.mem_cons_self raw rest, i, h, hkeep, hne⟩
        · obtain ⟨r, hr, hrest⟩ := ih _ p h
          exact ⟨r, List.mem_cons_of_mem raw hr, hrest⟩
      · obtain ⟨r, hr, hrest⟩ := ih _ p hp
        exact ⟨r, List.mem_cons_of_mem raw hr, hrest⟩

theorem removeApplicantsItems_mem (keep : String → Bool) (chatlog : String)
    (it : StoredItem) (hit : it ∈ removeApplicantsItems keep chatlog) :
    ∃ raw ∈ splitLines chatlog.data,
      it.fullLine = ⟨jsTrimList raw⟩ ∧ keep ⟨jsTrimList raw⟩ = true ∧
      jsTrimList raw ≠ [] := by
  rw [removeApplicantsItems_eq] at hit
  obtain ⟨x, hx, hxit⟩ := List.mem_map.mp hit
  have hxres : x ∈ resolveList none 0 (removeApplicantsParsed keep chatlog) :=
    (firstOccsR_sublist _ _).mem hx
  have hxp : x.1 ∈ removeApplicantsParsed keep chatlog := by
    have := List.mem_map_of_mem Prod.fst hxres
    rwa [resolveList_fst] at this
  have hxp1 : x.1 ∈ passOne keep 0 (splitLines chatlog.data) :=
    (mem_stableSort _ _ _).mp hxp
  obtain ⟨raw, hraw, j, hpj, hkeep, hne⟩ := passOne_mem keep 0 _ x.1 hxp1
  refine ⟨raw, hraw, ?_, hkeep, hne⟩
  rw [← hxit]
  show x.1.fullLine = _
  rw [hpj, mkParsedLine_fullLine]

/-! ## Joining and re-splitting the output -/

theorem splitLines_no_nl : ∀ (s : List Char), ∀ l ∈ splitLines s, ('\n' : Char) ∉ l := by
  intro s
  induction s with
  | nil =>
    intro l hl
    obtain rfl := List.mem_singleton.mp hl
    simp
  | cons c cs ih =>
    intro l hl
    by_cases hc : c = '\n'
    · rw [splitLines, if_pos hc] at hl
      rcases List.mem_cons.mp hl with rfl | h
      · simp
      · exact ih l h
    · rw [splitLines, if_neg hc] at hl
      rcases hsp : splitLines cs with _ | ⟨l', ls⟩
      · rw [hsp] at hl
        obtain rfl := List.mem_singleton.mp hl
        intro hmem
        exact hc (List.mem_singleton.mp hmem).symm
      · rw [hsp] at hl
        rcases List.mem_cons.mp hl with rfl | h
        · intro hmem
          rcases List.mem_cons.mp hmem with h' | h'
          · exact hc h'.symm
          · exact ih l' (hsp ▸ List.mem_cons_self l' ls) h'
        · exact ih l (hsp ▸ List.mem_cons_of_mem l' h)

theorem splitLines_of_no_nl (l : List Char) (h : ('\n' : Char) ∉ l) :
    splitLines l = [l] := by
  induction l with
  | nil => rfl
  | cons c cs ih =>
    have hc : c ≠ '\n' := fun hc => h (hc ▸ List.mem_cons_self c cs)
    have hcs : ('\n' : Char) ∉ cs := fun hm => h (List.mem_cons_of_mem c hm)
    rw [splitLines, if_neg hc, ih hcs]

theorem splitLines_append (l₁ l₂ : List Char) (h : ('\n' : Char) ∉ l₁) :
    splitLines (l₁ ++ '\n' :: l₂) = l₁ :: splitLines l₂ := by
  induction l₁ with
  | nil => simp [splitLines]
  | cons c cs ih =>
    have hc : c ≠ '\n' := fun hc => h (hc ▸ List.mem_cons_self c cs)
    have hcs : ('\n' : Char) ∉ cs := fun hm => h (List.mem_cons_of_mem c hm)
    rw [List.cons_append, splitLines, if_neg hc, ih hcs]

theorem joinNl_data_split (ls : List String) (hne : ls ≠ [])
    (h : ∀ s ∈ ls, ('\n' : Char) ∉ s.data) :
    splitLines (joinNl ls).data = ls.map String.data := by
  induction ls with
  | nil => exact absurd rfl hne
  | cons s rest ih =>
    cases rest with
    | nil =>
      show splitLines (joinNl [s]).data = [s.data]
      exact splitLines_of_no_nl s.data (h s (List.mem_cons_self s []))
    | cons s' rest' =>
      have hjoin : joinNl (s :: s' :: rest') = s ++ "\n" ++ joinNl (s' :: rest') := rfl
      rw [hjoin]
      have hdata : (s ++ "\n" ++ joinNl (s' :: rest')).data
          = s.data ++ '\n' :: (joinNl (s' :: rest')).data := by
        rw [String.data_append, String.data_append, List.append_assoc]
        rfl
      rw [hdata, splitLines_append _ _ (h s (List.mem_cons_self s _)),
        ih (by simp) (fun t ht => h t (List.mem_cons_of_mem s ht))]
      rfl

theorem jsTrimList_subset (s : List Char) : ∀ c ∈ jsTrimList s, c ∈ s := by
  intro c hc
  unfold jsTrimList at hc
  rw [List.mem_reverse] at hc
  have h1 := (List.dropWhile_sublist isJsWhitespace).mem hc
  rw [List.mem_reverse] at h1
  exact (List.dropWhile_sublist isJsWhitespace).mem h1

/-! ## Re-running the pipeline on clean, ordered, key-distinct lines -/

theorem passOne_clean (keep : String → Bool) :
    ∀ (i : Nat) (ls : List (List Char)),
      (∀ l ∈ ls, jsTrimList l = l ∧ l ≠ [] ∧ keep ⟨l⟩ = true) →
      passOne keep i ls = buildParsed i ls := by
  intro i ls
  induction ls generalizing i with
  | nil => intro _; rfl
  | cons l rest ih =>
    intro h
    obtain ⟨htrim, hne, hkeep⟩ := h l (List.mem_cons_self l rest)
    rw [passOne, buildParsed]
    rw [if_neg (by rw [htrim]; exact hne), htrim]
    rw [if_pos hkeep]
    rw [ih (i + 1) (fun t ht => h t (List.mem_cons_of_mem l ht))]

theorem mkParsedLine_shift (i j : Nat) (t : List Char) :
    mkParsedLine i t = { mkParsedLine j t with originalIndex := i } := by
  unfold mkParsedLine
  split <;> rfl

theorem mkParsedLine_idx (i : Nat) (t : List Char) :
    (mkParsedLine i t).originalIndex = i := by
  unfold mkParsedLine
  split <;> rfl

theorem buildParsed_mem :
    ∀ (i : Nat) (ls : List (List Char)) (q : ParsedLine), q ∈ buildParsed i ls →
      ∃ j l, i ≤ j ∧ l ∈ ls ∧ q = mkParsedLine j l := by
  intro i ls
  induction ls generalizing i with
  | nil => intro q hq; simp [buildParsed] at hq
  | cons l rest ih =>
    intro q hq
    rcases List.mem_cons.mp hq with rfl | h
    · exact ⟨i, l, Nat.le_refl i, List.mem_cons_self l rest, rfl⟩
    · obtain ⟨j, l', hij, hl', hq'⟩ := ih (i + 1) q h
      exact ⟨j, l', by omega, List.mem_cons_of_mem l hl', hq'⟩

theorem cmp_of_preLE (i j : Nat) (l₁ l₂ : List Char) (h : preLE l₁ l₂) (hij : i < j) :
    cmpParsed (mkParsedLine i l₁) (mkParsedLine j l₂) ≤ 0 := by
  rw [cmpParsed_le_iff]
  have h1 : (mkParsedLine i l₁).timestampParts = (mkParsedLine 0 l₁).timestampParts := by
    rw [mkParsedLine_shift i 0]
  have h2 : (mkParsedLine j l₂).timestampParts = (mkParsedLine 0 l₂).timestampParts := by
    rw [mkParsedLine_shift j 0]
  unfold preLE at h
  unfold parsedKey
  rw [h1, h2, mkParsedLine_idx, mkParsedLine_idx]
  cases ht1 : (mkParsedLine 0 l₁).timestampParts <;>
    cases ht2 : (mkParsedLine 0 l₂).timestampParts <;>
    rw [ht1, ht2] at h <;>
    simp only [keyLe, true_and, lt_self_iff_false, false_or] <;>
    [omega; omega; exact h.elim; skip]
  unfold lexLeTs at h
  omega

theorem buildParsed_pairwise (ls : List (List Char))
    (hpw : List.Pairwise preLE ls) :
    ∀ i, List.Pairwise (fun a b => cmpParsed a b ≤ 0) (buildParsed i ls) := by
  induction ls with
  | nil => intro i; simp [buildParsed]
  | cons l rest ih =>
    intro i
    rcases List.pairwise_cons.mp hpw with ⟨hl, hrest⟩
    rw [buildParsed]
    refine List.pairwise_cons.mpr ⟨?_, ih hrest (i + 1)⟩
    intro q hq
    obtain ⟨j, l', hij, hl', rfl⟩ := buildParsed_mem (i + 1) rest q hq
    exact cmp_of_preLE i j l l' (hl l' hl') (by omega)

theorem buildParsed_fullLines :
    ∀ (i : Nat) (ls : List (List Char)),
      (buildParsed i ls).map ParsedLine.fullLine = ls.map (fun l => (⟨l⟩ : String)) := by
  intro i ls
  induction ls generalizing i with
  | nil => rfl
  | cons l rest ih =>
    rw [buildParsed, List.map_cons, List.map_cons, mkParsedLine_fullLine, ih]

theorem buildParsed_keys :
    ∀ (i : Nat) (ls : List (List Char)),
      (buildParsed i ls).map ParsedLine.contentForDeduplication
        = ls.map (fun l => (mkParsedLine 0 l).contentForDeduplication) := by
  intro i ls
  induction ls generalizing i with
  | nil => rfl
  | cons l rest ih =>
    rw [buildParsed, List.map_cons, List.map_cons, ih]
    congr 1
    rw [mkParsedLine_shift i 0]

theorem buildParsed_wf (i : Nat) (ls : List (List Char)) :
    ∀ p ∈ buildParsed i ls, wfParsed p := by
  intro p hp
  obtain ⟨j, l, _, _, rfl⟩ := buildParsed_mem i ls p hp
  exact mkParsedLine_wf j l

/-! ## The output of the pipeline is a fixed point -/

theorem removeApplicantsWith_empty (keep : String → Bool) :
    removeApplicantsWith keep "" = "" := rfl

theorem removeApplicantsWith_fixed (keep : String → Bool) (lines : List String)
    (hclean : ∀ s ∈ lines, jsTrimList s.data = s.data ∧ s.data ≠ [] ∧
      keep s = true ∧ ('\n' : Char) ∉ s.data)
    (hpw : List.Pairwise preLE (lines.map String.data))
    (hkeys : (lines.map
      (fun s => (mkParsedLine 0 s.data).contentForDeduplication)).Nodup) :
    removeApplicantsWith keep (joinNl lines) = joinNl lines := by
  by_cases hne : lines = []
  · rw [hne]
    exact removeApplicantsWith_empty keep
  · have hsplit : splitLines (joinNl lines).data = lines.map String.data :=
      joinNl_data_split lines hne (fun s hs => (hclean s hs).2.2.2)
    have hclean' : ∀ l ∈ lines.map String.data,
        jsTrimList l = l ∧ l ≠ [] ∧ keep ⟨l⟩ = true := by
      intro l hl
      obtain ⟨s, hs, rfl⟩ := List.mem_map.mp hl
      obtain ⟨h1, h2, h3, _⟩ := hclean s hs
      exact ⟨h1, h2, h3⟩
    have hpass : passOne keep 0 (lines.map String.data)
        = buildParsed 0 (lines.map String.data) :=
      passOne_clean keep 0 _ hclean'
    have hQpw : List.Pairwise (fun a b => cmpParsed a b ≤ 0)
        (buildParsed 0 (lines.map String.data)) := buildParsed_pairwise _ hpw 0
    have hsortQ : sortParsed (buildParsed 0 (lines.map String.data))
        = buildParsed 0 (lines.map String.data) :=
      stableSort_of_pairwise _ _ (hQpw.imp decide_eq_true)
    have hQ : removeApplicantsParsed keep (joinNl lines)
        = buildParsed 0 (lines.map String.data) := by
      unfold removeApplicantsParsed
      rw [hsplit, hpass]
      exact hsortQ
    have hkeysQ : ((buildParsed 0 (lines.map String.data)).map
        ParsedLine.contentForDeduplication).Nodup := by
      rw [buildParsed_keys, List.map_map]
      exact hkeys
    have hresKeys : ((resolveList none 0 (buildParsed 0 (lines.map String.data))).map
        (fun x => x.1.contentForDeduplication)).Nodup := by
      have heq : (resolveList none 0 (buildParsed 0 (lines.map String.data))).map
          (fun x : ParsedLine × Nat => x.1.contentForDeduplication)
          = (buildParsed 0 (lines.map String.data)).map
              ParsedLine.contentForDeduplication := by
        have hc : (fun x : ParsedLine × Nat => x.1.contentForDeduplication)
            = ParsedLine.contentForDeduplication ∘ Prod.fst := rfl
        rw [hc, ← List.map_map, resolveList_fst]
      rw [heq]
      exact hkeysQ
    have hfo : firstOccsR [] (resolveList none 0 (buildParsed 0 (lines.map String.data)))
        = resolveList none 0 (buildParsed 0 (lines.map String.data)) :=
      firstOccsR_all_new [] _ hresKeys (fun x _ => List.not_mem_nil _)
    show joinNl ((removeApplicantsItems keep (joinNl lines)).map StoredItem.fullLine)
        = joinNl lines
    rw [removeApplicantsItems_eq, hQ, hfo, List.map_map]
    have hcomp : (StoredItem.fullLine ∘ fun x : ParsedLine × Nat =>
        (⟨x.1.fullLine, x.2⟩ : StoredItem)) = ParsedLine.fullLine ∘ Prod.fst := rfl
    rw [hcomp, ← List.map_map, resolveList_fst, buildParsed_fullLines, List.map_map]
    congr 1
    have hid : ((fun l => (⟨l⟩ : String)) ∘ String.data) = id := rfl
    rw [hid, List.map_id]

/-! ## The lines of the first run satisfy the fixed-point hypotheses -/

theorem sortedParsed_mem (keep : String → Bool) (chatlog : String) (p : ParsedLine)
    (hp : p ∈ removeApplicantsParsed keep chatlog) :
    ∃ raw ∈ splitLines chatlog.data, ∃ j, p = mkParsedLine j (jsTrimList raw) ∧
      keep ⟨jsTrimList raw⟩ = true ∧ jsTrimList raw ≠ [] :=
  passOne_mem keep 0 _ p ((mem_stableSort _ _ _).mp hp)

theorem firstOccs_fst_sublist (keep : String → Bool) (chatlog : String) :
    (firstOccsR [] (resolveList none 0 (removeApplicantsParsed keep chatlog))).map
      Prod.fst <+ removeApplicantsParsed keep chatlog := by
  have h := (firstOccsR_sublist ([] : List String)
    (resolveList none 0 (removeApplicantsParsed keep chatlog))).map Prod.fst
  rwa [resolveList_fst] at h

theorem mk_origin_ts (p : ParsedLine) (j : Nat) (t : List Char)
    (hp : p = mkParsedLine j t) :
    (mkParsedLine 0 p.fullLine.data).timestampParts = p.timestampParts ∧
    (mkParsedLine 0 p.fullLine.data).contentForDeduplication
      = p.contentForDeduplication := by
  subst hp
  rw [mkParsedLine_fullLine]
  show (mkParsedLine 0 t).timestampParts = _ ∧
    (mkParsedLine 0 t).contentForDeduplication = _
  rw [mkParsedLine_shift j 0]
  exact ⟨rfl, rfl⟩

theorem preLE_of_cmp (p p' : ParsedLine)
    (hp : ∃ j t, p = mkParsedLine j t) (hp' : ∃ j t, p' = mkParsedLine j t)
    (h : cmpParsed p p' ≤ 0) : preLE p.fullLine.data p'.fullLine.data := by
  obtain ⟨j, t, hpe⟩ := hp
  obtain ⟨j', t', hpe'⟩ := hp'
  have h1 := mk_origin_ts p j t hpe
  have h2 := mk_origin_ts p' j' t' hpe'
  unfold preLE
  rw [h1.1, h2.1]
  cases ht : p.timestampParts with
  | none =>
    cases ht' : p'.timestampParts with
    | none => exact trivial
    | some tb => exact trivial
  | some ta =>
    cases ht' : p'.timestampParts with
    | none => exact cmpParsed_some_none p p' ta ht ht' h
    | some tb => exact cmpParsed_some_some p p' ta tb ht ht' h

theorem removeApplicantsLines_eq (keep : String → Bool) (chatlog : String) :
    (removeApplicantsItems keep chatlog).map StoredItem.fullLine
      = (firstOccsR [] (resolveList none 0
          (removeApplicantsParsed keep chatlog))).map (fun x => x.1.fullLine) := by
  rw [removeApplicantsItems_eq, List.map_map]
  rfl

theorem outLines_clean (keep : String → Bool) (chatlog : String) :
    ∀ s ∈ (firstOccsR [] (resolveList none 0
        (removeApplicantsParsed keep chatlog))).map (fun x => x.1.fullLine),
      jsTrimList s.data = s.data ∧ s.data ≠ [] ∧ keep s = true ∧
      ('\n' : Char) ∉ s.data := by
  intro s hs
  obtain ⟨x, hx, rfl⟩ := List.mem_map.mp hs
  have hpmem := List.mem_map_of_mem Prod.fst hx
  obtain ⟨raw, hraw, j, hpj, hkeep, hne⟩ := sortedParsed_mem keep chatlog x.1
    ((firstOccs_fst_sublist keep chatlog).mem hpmem)
  have hdata : x.1.fullLine.data = jsTrimList raw := by
    rw [hpj, mkParsedLine_fullLine]
  refine ⟨?_, ?_, ?_, ?_⟩
  · rw [hdata]
    exact jsTrimList_idem raw
  · rw [hdata]
    exact hne
  · have hfl : x.1.fullLine = ⟨jsTrimList raw⟩ := by rw [hpj, mkParsedLine_fullLine]
    rw [hfl]
    exact hkeep
  · rw [hdata]
    intro hmem
    exact splitLines_no_nl chatlog.data raw hraw (jsTrimList_subset raw '\n' hmem)

theorem outLines_pairwise (keep : String → Bool) (chatlog : String) :
    List.Pairwise preLE (((firstOccsR [] (resolveList none 0
        (removeApplicantsParsed keep chatlog))).map
          (fun x => x.1.fullLine)).map String.data) := by
  have hPpw : List.Pairwise (fun a b => cmpParsed a b ≤ 0)
      ((firstOccsR [] (resolveList none 0
        (removeApplicantsParsed keep chatlog))).map Prod.fst) :=
    (sortParsed_pairwise _).sublist (firstOccs_fst_sublist keep chatlog)
  have heq : ((firstOccsR [] (resolveList none 0
      (removeApplicantsParsed keep chatlog))).map
        (fun x => x.1.fullLine)).map String.data
      = ((firstOccsR [] (resolveList none 0
          (removeApplicantsParsed keep chatlog))).map Prod.fst).map
            (fun p => p.fullLine.data) := by
    rw [List.map_map, List.map_map]
    rfl
  rw [heq, List.pairwise_map]
  refine hPpw.imp_of_mem ?_
  intro p p' hp hp' h
  obtain ⟨_, _, j, hpj, _, _⟩ := sortedParsed_mem keep chatlog p
    ((firstOccs_fst_sublist keep chatlog).mem hp)
  obtain ⟨_, _, j', hpj', _, _⟩ := sortedParsed_mem keep chatlog p'
    ((firstOccs_fst_sublist keep chatlog).mem hp')
  exact preLE_of_cmp p p' ⟨j, _, hpj⟩ ⟨j', _, hpj'⟩ h

theorem outLines_keys_nodup (keep : String → Bool) (chatlog : String) :
    (((firstOccsR [] (resolveList none 0
        (removeApplicantsParsed keep chatlog))).map (fun x => x.1.fullLine)).map
      (fun s => (mkParsedLine 0 s.data).contentForDeduplication)).Nodup := by
  rw [List.map_map]
  have hmapeq : ((firstOccsR [] (resolveList none 0
      (removeApplicantsParsed keep chatlog))).map ((fun s : String =>
      (mkParsedLine 0 s.data).contentForDeduplication) ∘ fun x => x.1.fullLine))
      = (firstOccsR [] (resolveList none 0
          (removeApplicantsParsed keep chatlog))).map
            (fun x => x.1.contentForDeduplication) := by
    apply List.map_congr_left
    intro x hx
    obtain ⟨raw, hraw, j, hpj, _, _⟩ := sortedParsed_mem keep chatlog x.1
      ((firstOccs_fst_sublist keep chatlog).mem (List.mem_map_of_mem Prod.fst hx))
    exact (mk_origin_ts x.1 j _ hpj).2
  rw [hmapeq]
  exact firstOccsR_keys_nodup [] _

theorem removeApplicantsWith_idem (keep : String → Bool) (chatlog : String) :
    removeApplicantsWith keep (removeApplicantsWith keep chatlog)
      = removeApplicantsWith keep chatlog := by
  have hlines : removeApplicantsWith keep chatlog
      = joinNl ((firstOccsR [] (resolveList none 0
          (removeApplicantsParsed keep chatlog))).map (fun x => x.1.fullLine)) :=
    congrArg joinNl (removeApplicantsLines_eq keep chatlog)
  rw [hlines]
  exact removeApplicantsWith_fixed keep _ (outLines_clean keep chatlog)
    (outLines_pairwise keep chatlog) (outLines_keys_nodup keep chatlog)

/-! ## Literal-only patterns coincide with case-insensitive containment -/

theorem compilePattern_all_lit :
    ∀ (cs : List Char) (pat : List RAtom), compilePattern cs = some pat →
      allLit pat = true → pat = cs.map RAtom.lit := by
  intro cs
  induction cs with
  | nil =>
    intro pat h _
    rw [compilePattern] at h
    exact (Option.some_inj.mp h).symm
  | cons c cs ih =>
    intro pat h hlit
    rw [compilePattern] at h
    by_cases hdot : c = '.'
    · rw [if_pos hdot] at h
      cases hrec : compilePattern cs with
      | none => rw [hrec] at h; exact absurd h (by simp)
      | some pat' =>
        rw [hrec] at h
        simp only [Option.map_some'] at h
        rw [← Option.some_inj.mp h] at hlit
        exact absurd hlit (by simp [allLit])
    · rw [if_neg hdot] at h
      by_cases hsyn : isRegexSyntaxChar c = true
      · rw [if_pos hsyn] at h
        exact absurd h (by simp)
      · rw [if_neg hsyn] at h
        cases hrec : compilePattern cs with
        | none => rw [hrec] at h; exact absurd h (by simp)
        | some pat' =>
          rw [hrec] at h
          simp only [Option.map_some'] at h
          obtain rfl := (Option.some_inj.mp h).symm
          rw [List.map_cons, ih pat' hrec (by simpa [allLit] using hlit)]

theorem matchesAt_lit (cs : List Char) :
    ∀ (s : List Char), matchesAt (cs.map RAtom.lit) s
      = leadsWith (cs.map foldChar) (s.map foldChar) := by
  induction cs with
  | nil => intro s; rfl
  | cons c cs ih =>
    intro s
    cases s with
    | nil => rfl
    | cons d s =>
      show (atomMatches (RAtom.lit c) d && matchesAt (cs.map RAtom.lit) s)
        = (decide (foldChar c = foldChar d) && leadsWith (cs.map foldChar) (s.map foldChar))
      rw [ih s]
      rfl

theorem regexTest_lit (cs : List Char) :
    ∀ (s : List Char), regexTest (cs.map RAtom.lit) s
      = containsSeq (cs.map foldChar) (s.map foldChar) := by
  intro s
  induction s with
  | nil =>
    show matchesAt (cs.map RAtom.lit) [] = leadsWith (cs.map foldChar) []
    exact matchesAt_lit cs []
  | cons d s ih =>
    show (matchesAt (cs.map RAtom.lit) (d :: s) || regexTest (cs.map RAtom.lit) s)
      = (leadsWith (cs.map foldChar) (foldChar d :: s.map foldChar)
          || containsSeq (cs.map foldChar) (s.map foldChar))
    rw [ih, matchesAt_lit cs (d :: s)]
    rfl

/-- The empty pattern matches every string. -/
theorem regexTest_nil (s : List Char) : regexTest [] s = true := by
  cases s <;> rfl

/-! ## The output is nonempty when a nonblank line survives -/

theorem passOne_ne_nil (keep : String → Bool) :
    ∀ (i : Nat) (ls : List (List Char)) (raw : List Char), raw ∈ ls →
      jsTrimList raw ≠ [] → keep ⟨jsTrimList raw⟩ = true →
      passOne keep i ls ≠ [] := by
  intro i ls
  induction ls generalizing i with
  | nil => intro raw hraw; simp at hraw
  | cons l rest ih =>
    intro raw hraw hne hkeep
    rcases List.mem_cons.mp hraw with rfl | h
    · rw [passOne, if_neg hne, if_pos hkeep]
      exact List.cons_ne_nil _ _
    · rw [passOne]
      by_cases h1 : jsTrimList l = []
      · rw [if_pos h1]
        exact ih (i + 1) raw h hne hkeep
      · rw [if_neg h1]
        by_cases h2 : keep ⟨jsTrimList l⟩ = true
        · rw [if_pos h2]
          exact List.cons_ne_nil _ _
        · rw [if_neg h2]
          exact ih (i + 1) raw h hne hkeep

theorem firstOccsR_ne_nil (l : List (ParsedLine × Nat)) (h : l ≠ []) :
    firstOccsR [] l ≠ [] := by
  cases l with
  | nil => exact absurd rfl h
  | cons x rest =>
    rw [firstOccsR, if_neg (List.not_mem_nil _)]
    simp

theorem joinNl_ne_empty (lines : List String) (hne : lines ≠ [])
    (h : ∀ s ∈ lines, s.data ≠ []) : joinNl lines ≠ "" := by
  cases lines with
  | nil => exact absurd rfl hne
  | cons s rest =>
    cases rest with
    | nil =>
      show s ≠ ""
      intro hc
      exact h s (List.mem_cons_self s _) (by rw [hc])
    | cons s' rest' =>
      show s ++ "\n" ++ joinNl (s' :: rest') ≠ ""
      intro hc
      have := congrArg String.data hc
      rw [String.data_append, String.data_append] at this
      have hs := h s (List.mem_cons_self s _)
      cases hd : s.data with
      | nil => exact hs hd
      | cons c cs =>
        rw [hd] at this
        simp at this

theorem removeApplicantsWith_ne_empty (keep : String → Bool) (chatlog : String)
    (raw : List Char) (hraw : raw ∈ splitLines chatlog.data)
    (hne : jsTrimList raw ≠ []) (hkeep : keep ⟨jsTrimList raw⟩ = true) :
    removeApplicantsWith keep chatlog ≠ "" := by
  have hp1 : passOne keep 0 (splitLines chatlog.data) ≠ [] :=
    passOne_ne_nil keep 0 _ raw hraw hne hkeep
  have hp2 : removeApplicantsParsed keep chatlog ≠ [] := by
    intro hc
    apply hp1
    have := (stableSort_perm (fun a b => decide (cmpParsed a b ≤ 0))
      (passOne keep 0 (splitLines chatlog.data))).length_eq
    rw [show stableSort (fun a b => decide (cmpParsed a b ≤ 0))
        (passOne keep 0 (splitLines chatlog.data))
        = removeApplicantsParsed keep chatlog from rfl, hc] at this
    exact List.length_eq_zero.mp this.symm
  have hp3 : resolveList none 0 (removeApplicantsParsed keep chatlog) ≠ [] := by
    intro hc
    apply hp2
    have := congrArg (List.map Prod.fst) hc
    rwa [resolveList_fst] at this
  have hp4 : firstOccsR [] (resolveList none 0 (removeApplicantsParsed keep chatlog))
      ≠ [] := firstOccsR_ne_nil _ hp3
  have hp5 : (firstOccsR [] (resolveList none 0
      (removeApplicantsParsed keep chatlog))).map (fun x => x.1.fullLine) ≠ [] := by
    intro hc
    exact hp4 (List.map_eq_nil_iff.mp hc)
  show joinNl ((removeApplicantsItems keep chatlog).map StoredItem.fullLine) ≠ ""
  rw [removeApplicantsLines_eq]
  exact joinNl_ne_empty _ hp5 (fun s hs => (outLines_clean keep chatlog s hs).2.1)

/-! ## The claims -/

/-- C1: the spec claims that for a chatlog with `[23:59:59]` followed by
`[00:00:01]`, both surviving the filter, the second line resolves to a
strictly later absolute timestamp (next day).  The code violates this:
the pre-sort places `[00:00:01]` (input index 1) before `[23:59:59]`
(input index 0), so the rollover branch never fires and the second input
line resolves to `baseMs + 1000`, strictly EARLIER than the first's
`baseMs + 86399000`; the output lists `[00:00:01]` first.  This theorem
evaluates the code at the failing input. -/
theorem c1_day_rollover_code_eval :
    ((resolveList none 0 (removeApplicantsParsed
        (fun l => regexTest [RAtom.lit 'a'] l.data)
        "[23:59:59] A: one\n[00:00:01] A: two")).map
          (fun x => (x.1.originalIndex, x.2))
      = [(1, baseMs + 1000), (0, baseMs + 86399000)]) ∧
    removeApplicants "[23:59:59] A: one\n[00:00:01] A: two" "a"
      = some "[00:00:01] A: two\n[23:59:59] A: one" := by decide

/-- C2: the spec claims the day-offset inference runs over the lines in
their filtered/parsed (input) order.  The code sorts `parsedLines` by
time of day before Pass 2: at the failing input the filtered order of
original indices is `[0, 1]` but the order actually fed to the
day-offset pass (`removeApplicantsParsed`, the pre-sorted list) is
`[1, 0]`. -/
theorem c2_inference_order_code_eval :
    ((passOne (fun l => regexTest [RAtom.lit 'a'] l.data) 0
        (splitLines ("[23:59:59] A: one\n[00:00:01] A: two").data)).map
          ParsedLine.originalIndex = [0, 1]) ∧
    ((removeApplicantsParsed (fun l => regexTest [RAtom.lit 'a'] l.data)
        "[23:59:59] A: one\n[00:00:01] A: two").map
          ParsedLine.originalIndex = [1, 0]) := by decide

/-- C3 counterexample: `new RegExp("(", 'i')` throws a SyntaxError, so
`removeApplicants` does not return normally for every filter term; the
model returns `none` (exception) at the invalid pattern `"("`. -/
theorem c3_exception_counterexample : removeApplicants "a" "(" = none := by decide

/-- C3 (amended): for every chatlog and every filter term whose pattern
compiles, `removeApplicants` terminates normally and returns a string. -/
theorem c3_total_on_valid_patterns (chatlog term : String) (pat : List RAtom)
    (h : compilePattern term.data = some pat) :
    (removeApplicants chatlog term).isSome = true := by
  unfold removeApplicants
  rw [h]
  rfl

/-- C3 witness: the amended claim at a concrete valid pattern. -/
theorem c3_total_on_valid_patterns_witness :
    (removeApplicants "x" "bob").isSome = true :=
  c3_total_on_valid_patterns "x" "bob"
    [RAtom.lit 'b', RAtom.lit 'o', RAtom.lit 'b'] (by decide)

/-- C4 counterexample: the two input lines share the dedup key `"a"` and
resolve to EQUAL timestamps (`[00:60:00]` normalizes to the same instant
as `[01:00:00]`), the first-seen line being `"[01:00:00] a"` (input
index 0); yet the output keeps `"[00:60:00] a"`, because the time-of-day
pre-sort processes it first.  So ties are NOT broken by first occurrence
in the input. -/
theorem c4_tie_break_counterexample :
    (removeApplicants "[01:00:00] a\n[00:60:00] a" "a" = some "[00:60:00] a") ∧
    ((mkParsedLine 0 ("[01:00:00] a").data).contentForDeduplication = "a" ∧
     (mkParsedLine 1 ("[00:60:00] a").data).contentForDeduplication = "a") ∧
    ((resolveList none 0 (removeApplicantsParsed
        (fun l => regexTest [RAtom.lit 'a'] l.data) "[01:00:00] a\n[00:60:00] a")).map
          (fun x => (x.1.originalIndex, x.2))
      = [(1, baseMs + 3600000), (0, baseMs + 3600000)]) ∧
    "[00:60:00] a" ≠ "[01:00:00] a" := by decide

/-- C4 (amended): the map holds at most one entry per dedup key; the
retained entry has the minimum resolved timestamp among all same-key
survivors; ties keep the entry processed first in the time-of-day
pre-sorted order (the map is exactly the first key occurrences of that
order), not necessarily the first-seen input line. -/
theorem c4_dedup_invariant (keep : String → Bool) (chatlog : String)
    (k : String) (it : StoredItem) (p : ParsedLine) (ts : Nat)
    (hmem : (k, it) ∈ passTwo (removeApplicantsParsed keep chatlog))
    (hp : (p, ts) ∈ resolveList none 0 (removeApplicantsParsed keep chatlog))
    (hk : p.contentForDeduplication = k) :
    it.timestamp ≤ ts ∧
    ((passTwo (removeApplicantsParsed keep chatlog)).map Prod.fst).Nodup ∧
    passTwo (removeApplicantsParsed keep chatlog)
      = (firstOccsR [] (resolveList none 0 (removeApplicantsParsed keep chatlog))).map
          (fun x => (x.1.contentForDeduplication, ⟨x.1.fullLine, x.2⟩)) := by
  refine ⟨?_, ?_, passTwo_sorted_eq keep chatlog⟩
  · rw [passTwo_sorted_eq] at hmem
    obtain ⟨x, hx, hxeq⟩ := List.mem_map.mp hmem
    rw [Prod.mk.injEq] at hxeq
    obtain ⟨hkx, hitx⟩ := hxeq
    have hmin := firstOccsR_min _ (removeApplicantsParsed_resolved_pairwise keep chatlog)
      [] x hx (p, ts) hp (by rw [hk, ← hkx])
    rw [← hitx]
    exact hmin
  · rw [passTwo_sorted_eq, List.map_map]
    exact firstOccsR_keys_nodup [] _

/-- C4 witness: the amended claim at a concrete input (the earlier
`[08:00:00]` duplicate wins over the later `[09:00:00]` one). -/
theorem c4_dedup_invariant_witness :
    (⟨"[08:00:00] x", baseMs + 28800000⟩ : StoredItem).timestamp
        ≤ baseMs + 32400000 ∧
    ((passTwo (removeApplicantsParsed (fun l => regexTest [RAtom.lit 'x'] l.data)
        "[09:00:00] x\n[08:00:00] x")).map Prod.fst).Nodup ∧
    passTwo (removeApplicantsParsed (fun l => regexTest [RAtom.lit 'x'] l.data)
        "[09:00:00] x\n[08:00:00] x")
      = (firstOccsR [] (resolveList none 0 (removeApplicantsParsed
          (fun l => regexTest [RAtom.lit 'x'] l.data)
          "[09:00:00] x\n[08:00:00] x"))).map
            (fun x => (x.1.contentForDeduplication, ⟨x.1.fullLine, x.2⟩)) :=
  c4_dedup_invariant (fun l => regexTest [RAtom.lit 'x'] l.data)
    "[09:00:00] x\n[08:00:00] x" "x" ⟨"[08:00:00] x", baseMs + 28800000⟩
    (mkParsedLine 0 ("[09:00:00] x").data) (baseMs + 32400000)
    (by decide) (by decide) (by decide)

/-- C5: the output string is the join of the retained items, and along
those items the resolved timestamps are non-decreasing: every adjacent
pair of output lines is in chronological order. -/
theorem c5_chronological_order (keep : String → Bool) (chatlog : String) :
    removeApplicantsWith keep chatlog
      = joinNl ((removeApplicantsItems keep chatlog).map StoredItem.fullLine) ∧
    List.Chain' (fun a b => a.timestamp ≤ b.timestamp)
      (removeApplicantsItems keep chatlog) :=
  ⟨rfl, removeApplicantsItems_chain keep chatlog⟩

/-- C6 counterexample: the spec's Scenario 3 expects the output to begin
with `"no timestamp here"`, but that line does not contain `"bob"` and
is removed by the filter, so the output is just `"[01:00:00] Bob: hi"`. -/
theorem c6_scenario3_counterexample :
    (removeApplicants "no timestamp here\n[01:00:00] Bob: hi" "bob"
      = some "[01:00:00] Bob: hi") ∧
    (some "[01:00:00] Bob: hi"
      ≠ some "no timestamp here\n[01:00:00] Bob: hi") ∧
    regexTest [RAtom.lit 'b', RAtom.lit 'o', RAtom.lit 'b']
      ("no timestamp here").data = false := by decide

/-- C6 (amended): for the input of Scenario 3 the output is exactly
`"[01:00:00] Bob: hi"`; the non-timestamped line is filtered out because
it does not contain the term. -/
theorem c6_scenario3_amended :
    removeApplicants "no timestamp here\n[01:00:00] Bob: hi" "bob"
      = some "[01:00:00] Bob: hi" := by decide

/-- C7 counterexample: with the filter term `"."` (a regex wildcard,
passed unescaped), the line `"abc"` survives and appears in the output,
although it does not contain `"."` as a case-insensitive substring. -/
theorem c7_filter_regex_counterexample :
    (removeApplicants "abc" "." = some "abc") ∧
    containsCaseInsensitive "abc" "." = false := by decide

/-- C7 (amended): every output line passed the compiled regex test; when
the term contains no regex metacharacters (all atoms literal), the test
coincides with case-insensitive substring containment, so every line of
the output contains the term as a case-insensitive substring. -/
theorem c7_filter_literal_containment (chatlog term : String) (pat : List RAtom)
    (hc : compilePattern term.data = some pat) (hlit : allLit pat = true)
    (ln : String)
    (h : ln ∈ (removeApplicantsItems
        (fun l => regexTest pat l.data) chatlog).map StoredItem.fullLine) :
    removeApplicants chatlog term
      = some (removeApplicantsWith (fun l => regexTest pat l.data) chatlog) ∧
    containsCaseInsensitive ln term = true := by
  constructor
  · unfold removeApplicants
    rw [hc]
  · obtain ⟨it, hit, rfl⟩ := List.mem_map.mp h
    obtain ⟨raw, hraw, hfl, hkeep, hne⟩ :=
      removeApplicantsItems_mem (fun l => regexTest pat l.data) chatlog it hit
    have hpat : pat = term.data.map RAtom.lit :=
      compilePattern_all_lit term.data pat hc hlit
    unfold containsCaseInsensitive
    rw [hfl]
    show containsSeq (term.data.map foldChar) ((jsTrimList raw).map foldChar) = true
    rw [← regexTest_lit term.data (jsTrimList raw), ← hpat]
    exact hkeep

/-- C7 witness: the amended claim at a concrete literal term. -/
theorem c7_filter_literal_containment_witness :
    (removeApplicants "[01:00:00] Bob: hi" "bob"
      = some (removeApplicantsWith
          (fun l => regexTest [RAtom.lit 'b', RAtom.lit 'o', RAtom.lit 'b'] l.data)
          "[01:00:00] Bob: hi")) ∧
    containsCaseInsensitive "[01:00:00] Bob: hi" "bob" = true :=
  c7_filter_literal_containment "[01:00:00] Bob: hi" "bob"
    [RAtom.lit 'b', RAtom.lit 'o', RAtom.lit 'b'] (by decide) (by decide)
    "[01:00:00] Bob: hi" (by decide)

/-- C8: running `removeApplicants` on its own output with the same
filter term returns the output unchanged. -/
theorem c8_idempotent (chatlog term out : String)
    (h : removeApplicants chatlog term = some out) :
    removeApplicants out term = some out := by
  unfold removeApplicants at h ⊢
  cases hc : compilePattern term.data with
  | none => rw [hc] at h; exact absurd h (by simp)
  | some pat =>
    rw [hc] at h
    have hout := Option.some_inj.mp h
    show some (removeApplicantsWith (fun line => regexTest pat line.data) out)
      = some out
    rw [← hout, removeApplicantsWith_idem]

/-- C8 witness: idempotence at a concrete input. -/
theorem c8_idempotent_witness :
    removeApplicants "[10:00:00] Alice: hi" "alice" = some "[10:00:00] Alice: hi" :=
  c8_idempotent "[10:00:00] Alice: hi\n[10:00:00] Alice: hi" "alice"
    "[10:00:00] Alice: hi" (by decide)

/-- C9 (implicit): the empty filter term compiles to the empty pattern,
which matches every line, so `removeApplicants chatlog ""` runs the
pipeline with an always-true filter; and whenever the chatlog has a line
that is nonempty after trimming, the output is nonempty. -/
theorem c9_empty_filter_keeps_all (chatlog : String) (raw : List Char)
    (hraw : raw ∈ splitLines chatlog.data) (hne : jsTrimList raw ≠ []) :
    removeApplicants chatlog ""
      = some (removeApplicantsWith (fun _ => true) chatlog) ∧
    removeApplicantsWith (fun _ => true) chatlog ≠ "" := by
  have hkeep : (fun line : String => regexTest [] line.data)
      = fun _ => true := by
    funext l
    exact regexTest_nil l.data
  constructor
  · show some (removeApplicantsWith (fun line => regexTest [] line.data) chatlog) = _
    rw [hkeep]
  · exact removeApplicantsWith_ne_empty _ chatlog raw hraw hne rfl

/-- C9 witness: the empty filter at a concrete one-line chatlog. -/
theorem c9_empty_filter_keeps_all_witness :
    (removeApplicants "x" ""
      = some (removeApplicantsWith (fun _ => true) "x")) ∧
    removeApplicantsWith (fun _ => true) "x" ≠ "" :=
  c9_empty_filter_keeps_all "x" ['x'] (by decide) (by decide)

/-- C10 (implicit): the output is the join of the retained lines, and
every retained line is exactly the trimmed text of some line of the
input chatlog — nothing is synthesized or rewritten. -/
theorem c10_output_lines_from_input (keep : String → Bool) (chatlog : String)
    (ln : String)
    (h : ln ∈ (removeApplicantsItems keep chatlog).map StoredItem.fullLine) :
    (removeApplicantsWith keep chatlog
      = joinNl ((removeApplicantsItems keep chatlog).map StoredItem.fullLine)) ∧
    ∃ raw ∈ splitLines chatlog.data, ln = jsTrim ⟨raw⟩ := by
  refine ⟨rfl, ?_⟩
  obtain ⟨it, hit, rfl⟩ := List.mem_map.mp h
  obtain ⟨raw, hraw, hfl, _, _⟩ := removeApplicantsItems_mem keep chatlog it hit
  exact ⟨raw, hraw, hfl⟩

/-- C10 witness: at a concrete input, the single output line is the
trimmed text of the input line. -/
theorem c10_output_lines_from_input_witness :
    (removeApplicantsWith (fun _ => true) " hi "
      = joinNl ((removeApplicantsItems (fun _ => true) " hi ").map
          StoredItem.fullLine)) ∧
    ∃ raw ∈ splitLines (" hi ").data, "hi" = jsTrim ⟨raw⟩ :=
  c10_output_lines_from_input (fun _ => true) " hi " "hi" (by decide)
